import Mathlib

/-!
Verification of the agent-lambda service: a shallow embedding in Lean 4 of
the three source files `src/tools.py`, `src/agent.py` and `src/main.py`,
together with theorems settling the specification's claims about them.

Conventions of the embedding:
* Python monetary values are modelled to cent precision as `Int` (the
  claims only concern values exact at two decimals); the Python format
  `f"{price:.2f}"` becomes `fmt2`.
* A Python function body wrapped in `try/except` takes its fallible data
  fetch as an `Except String _` argument: `.error e` models the underlying
  fetch raising an exception with message `e`.
* The streaming layer of `main.py` works on `List Char` (Python `str`
  viewed as a character sequence), so that splitting/stripping proofs are
  structural.
-/

namespace AgentLambda

/-! ## tools.py: price formatting

Python renders prices with `f"${price:.2f}"`.  With prices in cents,
`fmt2 c` renders `c` cents as the fixed two-decimal string. -/

def digitChar (n : Nat) : Char := Char.ofNat (48 + n)

def pad2 (n : Nat) : String := String.mk [digitChar (n / 10 % 10), digitChar (n % 10)]

def fmt2N (c : Nat) : String := toString (c / 100) ++ "." ++ pad2 (c % 100)

def fmt2 (c : Int) : String := (if c < 0 then "-" else "") ++ fmt2N c.natAbs

/-- Predicate: `s` ends in a dot followed by exactly two digits, i.e. it
displays exactly two decimal places. -/
def twoDecimals (s : String) : Bool :=
  match s.data.reverse with
  | d2 :: d1 :: dot :: _ => dot = '.' && d1.isDigit && d2.isDigit
  | _ => false

/-! ## tools.py: `retrieve_realtime_stock_price`

`yf.Ticker(symbol)` data relevant to the function: `fast_info` fields
`last_price` and `currency`, and the one-day history's `Close` column. -/

structure RtData where
  last_price : Option Int
  currency : Option String
  histClose : List Int
  deriving Repr, DecidableEq

def realtimeSentence (symbol : String) (price : Int) (currency : String) : String :=
  "The real-time stock price for " ++ symbol ++ " is $" ++ fmt2 price ++ " " ++ currency ++ "."

def retrieve_realtime_stock_price (fetch : Except String RtData) (symbol : String) : String :=
  match fetch with
  | .error e => "An error occurred while retrieving the price for " ++ symbol ++ ": " ++ e
  | .ok t =>
    -- Python: currency = ticker.fast_info.get('currency', 'USD')
    let currency := t.currency.getD "USD"
    -- Python: `if price:` is True exactly when last_price is present and nonzero
    match t.last_price with
    | some price =>
      if price ≠ 0 then realtimeSentence symbol price currency
      else match t.histClose.getLast? with
        | some close => realtimeSentence symbol close currency
        | none => "Could not retrieve real-time price for " ++ symbol ++ ". The symbol may be invalid."
    | none =>
      match t.histClose.getLast? with
      | some close => realtimeSentence symbol close currency
      | none => "Could not retrieve real-time price for " ++ symbol ++ ". The symbol may be invalid."

/-! ## tools.py: `retrieve_historical_stock_price` -/

structure Row where
  open_ : Int
  high : Int
  low : Int
  close : Int
  deriving Repr, DecidableEq

def listMax (x : Int) (xs : List Int) : Int := xs.foldl max x

def listMin (x : Int) (xs : List Int) : Int := xs.foldl min x

def historicalSummary (symbol start_date end_date : String)
    (startP endP highP lowP : Int) : String :=
  "For " ++ symbol ++ " between " ++ start_date ++ " and " ++ end_date ++ ": " ++
  "the opening price was $" ++ fmt2 startP ++ ", the closing price was $" ++ fmt2 endP ++
  ", the highest price was $" ++ fmt2 highP ++ ", and the lowest price was $" ++ fmt2 lowP ++ "."

def noDataSentence (symbol start_date end_date : String) : String :=
  "No historical data found for " ++ symbol ++ " between " ++ start_date ++ " and " ++ end_date ++ "."

def retrieve_historical_stock_price (fetch : Except String (List Row))
    (symbol start_date end_date : String) : String :=
  match fetch with
  | .error e => "An error occurred while retrieving historical data for " ++ symbol ++ ": " ++ e
  | .ok hist =>
    match hist with
    | [] => noDataSentence symbol start_date end_date
    | r :: rs =>
      -- hist['Open'].iloc[0], hist['Close'].iloc[-1], hist['High'].max(), hist['Low'].min()
      let start_price := r.open_
      let end_price := (rs.getLastD r).close
      let high_price := listMax r.high (rs.map Row.high)
      let low_price := listMin r.low (rs.map Row.low)
      historicalSummary symbol start_date end_date start_price end_price high_price low_price

/-! ## agent.py: conversation state and the control loop

Langchain messages relevant to the graph: `HumanMessage`, `AIMessage`
(which carries `tool_calls`) and `ToolMessage` (which carries
`tool_call_id`). -/

structure ToolCall where
  name : String
  args : List (String × String)
  id : String
  deriving Repr, DecidableEq

inductive Message where
  | human (content : String)
  | ai (content : String) (tool_calls : List ToolCall)
  | tool (content : String) (tool_call_id : String)
  deriving Repr, DecidableEq

def Message.content : Message → String
  | .human c => c
  | .ai c _ => c
  | .tool c _ => c

/-- Accessor `last_message.tool_calls` — only `AIMessage` carries tool calls; the
graph only inspects this field on the message the `agent` node just
appended, which is always an `AIMessage`. -/
def Message.tool_calls : Message → List ToolCall
  | .ai _ tcs => tcs
  | _ => []

structure AgentState where
  messages : List Message
  deriving Repr, DecidableEq

/-- Function `should_continue` from agent.py: inspect the last message; with no
tool calls return "end", otherwise "continue".  (Python indexes
`state["messages"][-1]`, so the state is nonempty wherever it is called.) -/
def should_continue (state : AgentState) (h : state.messages ≠ []) : String :=
  let last_message := state.messages.getLast h
  if last_message.tool_calls.isEmpty then "end" else "continue"

inductive GraphNode where
  | agent
  | action
  | done
  deriving Repr, DecidableEq

/-- The conditional-edge mapping registered on the `agent` node:
`\x7b"continue": "action", "end": END\x7d`. -/
def routeAfterAgent (decision : String) : Option GraphNode :=
  if decision = "continue" then some .action
  else if decision = "end" then some .done
  else none

/-- Modelled from the spec: langgraph's `ToolNode` (third-party code, not
in this repository) executes one requested call and wraps its textual
result as a `ToolMessage` carrying the request's id.  The tool's actual
output text depends on external market data, abstracted as `env`. -/
def execToolCall (env : ToolCall → String) (tc : ToolCall) : Message :=
  .tool (env tc) tc.id

/-- Modelled from the spec: one run of the compiled graph.  The hosted
model's successive replies are abstracted as the `oracle` list of
(content, tool_calls) pairs; each iteration appends the model's
`AIMessage`, consults `should_continue`, and either stops (decision
"end") or appends one `ToolMessage` per requested call, in request
order, and loops.  An exhausted oracle ends the run. -/
def runLoop (env : ToolCall → String) :
    List (String × List ToolCall) → List Message → List Message
  | [], msgs => msgs
  | (c, tcs) :: rest, msgs =>
    let msgs' := msgs ++ [Message.ai c tcs]
    if should_continue ⟨msgs'⟩ (by simp [msgs']) = "end" then msgs'
    else runLoop env rest (msgs' ++ tcs.map (execToolCall env))

/-- Scan a conversation left to right carrying the list of tool-call
requests still awaiting their results.  An `AIMessage` loads its request
list as pending; each pending request must be answered immediately by a
tool result carrying that request's id, in request order; any tool
result with no pending request (in particular an (N+1)-th result after
an `AIMessage` with N requests) is a violation, as is anything other
than the matching tool result while requests are pending. -/
def wfScan : List ToolCall → List Message → Bool
  | pending, [] => pending.isEmpty
  | pending, m :: rest =>
    match pending, m with
    | tc :: p', .tool _ id => id = tc.id && wfScan p' rest
    | _ :: _, _ => false
    | [], .tool _ _ => false
    | [], .human _ => wfScan [] rest
    | [], .ai _ tcs => wfScan tcs rest

/-- The conversation-shape invariant: every `AIMessage` with N tool-call
requests is immediately followed by exactly N tool results, one per
request, carrying the requests' ids in request order. -/
def wfMessages (msgs : List Message) : Bool := wfScan [] msgs

/-! ## main.py: the word chunker of `stream_generator`

Python strings are modelled as `List Char`.  `pySplit` is `str.split()`
(split on whitespace runs, dropping empties); `pyStrip` is `str.strip()`. -/

def isSpace (c : Char) : Bool :=
  c = ' ' || c = '\t' || c = '\n' || c = '\r' || c = '\x0b' || c = '\x0c'

def pySplitGo : List Char → List Char → List (List Char)
  | [], acc => if acc.isEmpty then [] else [acc.reverse]
  | c :: cs, acc =>
    if isSpace c then
      if acc.isEmpty then pySplitGo cs [] else acc.reverse :: pySplitGo cs []
    else pySplitGo cs (c :: acc)

def pySplit (s : List Char) : List (List Char) := pySplitGo s []

def pyStrip (s : List Char) : List Char :=
  ((s.dropWhile isSpace).reverse.dropWhile isSpace).reverse

/-- The chunking loop of `stream_generator` (main.py lines 128–142):
`current_chunk += word + " "`; once `len(current_chunk.split()) >= 4`,
yield `current_chunk.strip()` and reset; after the loop yield the
stripped remainder when nonempty. -/
def chunkLoop : List (List Char) → List Char → List (List Char)
  | [], current_chunk =>
    if (pyStrip current_chunk).isEmpty then [] else [pyStrip current_chunk]
  | word :: words, current_chunk =>
    let current_chunk := current_chunk ++ word ++ [' ']
    if 4 ≤ (pySplit current_chunk).length then
      pyStrip current_chunk :: chunkLoop words []
    else chunkLoop words current_chunk

def chunkContent (content : List Char) : List (List Char) :=
  chunkLoop (pySplit content) []

/-! ## main.py: SSE event construction

Each yield in `stream_generator` is an f-string of the form
`"data: \x7b...\x7d\n\n"` with raw text interpolated into a JSON-shaped
template; the embedding reproduces that interpolation exactly. -/

def sseEvent (body : List Char) : List Char :=
  ("data: ".toList) ++ body ++ ("\n\n".toList)

def connectionBody : List Char :=
  ("\x7b\"type\": \"connection\", \"message\": \"Connected to agent\"\x7d").toList

def completeBody : List Char :=
  ("\x7b\"type\": \"complete\", \"message\": \"Response complete\"\x7d").toList

def errorBody (msg : List Char) : List Char :=
  ("\x7b\"type\": \"error\", \"message\": \"".toList) ++ msg ++ ("\"\x7d".toList)

def contentBody (text : List Char) : List Char :=
  ("\x7b\"type\": \"content\", \"text\": \"".toList) ++ text ++ ("\"\x7d".toList)

def toolResultBody (content : List Char) : List Char :=
  ("\x7b\"type\": \"tool_result\", \"content\": \"".toList) ++ content ++ ("\"\x7d".toList)

/-- Python's `str(dict)`: single-quoted reprs of keys and string values,
e.g. `\x7b'symbol': 'AAPL'\x7d` (for strings without escapes). -/
def pyDictReprGo : List (String × String) → List Char
  | [] => []
  | [(k, v)] => ("'" ++ k ++ "': '" ++ v ++ "'").toList
  | (k, v) :: rest => ("'" ++ k ++ "': '" ++ v ++ "', ").toList ++ pyDictReprGo rest

def pyDictRepr (args : List (String × String)) : List Char :=
  ("\x7b".toList) ++ pyDictReprGo args ++ ("\x7d".toList)

def toolCallBody (tc : ToolCall) : List Char :=
  ("\x7b\"type\": \"tool_call\", \"name\": \"".toList) ++ tc.name.toList ++
  ("\", \"args\": ".toList) ++ pyDictRepr tc.args ++ ("\x7d".toList)

/-- The events yielded for one `agent`-node output (main.py lines
113–142): one `tool_call` event per requested call, then the content —
when nonempty — chunked into `content` events. -/
def agentBranchEvents (last_message : Message) : List (List Char) :=
  (last_message.tool_calls.map (fun tc => sseEvent (toolCallBody tc))) ++
  (if last_message.content.isEmpty then []
   else (chunkContent last_message.content.toList).map (fun ch => sseEvent (contentBody ch)))

/-- The events yielded for one `action`-node output (main.py lines
144–149): one `tool_result` event per appended message with nonempty
content. -/
def actionBranchEvents (msgs : List Message) : List (List Char) :=
  (msgs.filter (fun m => !m.content.isEmpty)).map
    (fun m => sseEvent (toolResultBody m.content.toList))

/-! ## A JSON validity checker

The spec says every streamed event payload is a JSON object.  To settle
that claim we need a notion of "is valid JSON text": a recursive-descent
recognizer for RFC 8259 JSON values, written from the grammar.  It is
used only to classify the concrete payload strings the embedding
produces. -/

def lbrace : Char := Char.ofNat 123

def rbrace : Char := Char.ofNat 125

def jsonSkipWs : List Char → List Char
  | c :: cs => if c = ' ' || c = '\t' || c = '\n' || c = '\r' then jsonSkipWs cs else c :: cs
  | [] => []

def isHexDigit (c : Char) : Bool :=
  c.isDigit || ('a' ≤ c && c ≤ 'f') || ('A' ≤ c && c ≤ 'F')

/-- Consume the rest of a JSON string literal (the opening quote already
read); returns the unconsumed remainder. -/
def parseStringBody (fuel : Nat) : List Char → Option (List Char) :=
  match fuel with
  | 0 => fun _ => none
  | fuel + 1 => fun s =>
    match s with
    | [] => none
    | c :: cs =>
      if c = '"' then some cs
      else if c = '\\' then
        match cs with
        | [] => none
        | e :: cs' =>
          if e = '"' || e = '\\' || e = '/' || e = 'b' || e = 'f' || e = 'n' || e = 'r' || e = 't' then
            parseStringBody fuel cs'
          else if e = 'u' then
            match cs' with
            | h1 :: h2 :: h3 :: h4 :: cs'' =>
              if isHexDigit h1 && isHexDigit h2 && isHexDigit h3 && isHexDigit h4 then
                parseStringBody fuel cs''
              else none
            | _ => none
          else none
      else if c.val < 32 then none
      else parseStringBody fuel cs

def parseDigits1 : List Char → Option (List Char)
  | c :: cs => if c.isDigit then some (cs.dropWhile Char.isDigit) else none
  | [] => none

def parseFrac (s : List Char) : Option (List Char) :=
  match s with
  | '.' :: rest => parseDigits1 rest
  | _ => some s

def parseExp : List Char → Option (List Char)
  | c :: rest =>
    if c = 'e' || c = 'E' then
      match rest with
      | sg :: r => if sg = '+' || sg = '-' then parseDigits1 r else parseDigits1 rest
      | [] => none
    else some (c :: rest)
  | [] => some []

def parseNumber (s : List Char) : Option (List Char) := do
  let s := match s with | '-' :: rest => rest | _ => s
  let s ← parseDigits1 s
  let s ← parseFrac s
  parseExp s

def expectLit (lit : List Char) (s : List Char) : Option (List Char) :=
  if s.take lit.length = lit then some (s.drop lit.length) else none

mutual

def parseValue : Nat → List Char → Option (List Char)
  | 0, _ => none
  | fuel + 1, s =>
    match jsonSkipWs s with
    | [] => none
    | c :: cs =>
      if c = '"' then parseStringBody (cs.length + 1) cs
      else if c = lbrace then parseObjectRest fuel cs
      else if c = '[' then parseArrayRest fuel cs
      else if c = 't' then expectLit ("rue".toList) cs
      else if c = 'f' then expectLit ("alse".toList) cs
      else if c = 'n' then expectLit ("ull".toList) cs
      else parseNumber (c :: cs)

def parseObjectRest : Nat → List Char → Option (List Char)
  | 0, _ => none
  | fuel + 1, s =>
    match jsonSkipWs s with
    | [] => none
    | c :: cs =>
      if c = rbrace then some cs
      else if c = '"' then do
        let s1 ← parseStringBody (cs.length + 1) cs
        match jsonSkipWs s1 with
        | ':' :: s3 => do
          let s4 ← parseValue fuel s3
          parseMembersRest fuel s4
        | _ => none
      else none

def parseMembersRest : Nat → List Char → Option (List Char)
  | 0, _ => none
  | fuel + 1, s =>
    match jsonSkipWs s with
    | [] => none
    | c :: cs =>
      if c = rbrace then some cs
      else if c = ',' then
        match jsonSkipWs cs with
        | c' :: cs' =>
          if c' = '"' then do
            let s1 ← parseStringBody (cs'.length + 1) cs'
            match jsonSkipWs s1 with
            | ':' :: s3 => do
              let s4 ← parseValue fuel s3
              parseMembersRest fuel s4
            | _ => none
          else none
        | [] => none
      else none

def parseArrayRest : Nat → List Char → Option (List Char)
  | 0, _ => none
  | fuel + 1, s =>
    match jsonSkipWs s with
    | [] => none
    | c :: cs =>
      if c = ']' then some cs
      else do
        let s1 ← parseValue fuel (c :: cs)
        parseElemsRest fuel s1

def parseElemsRest : Nat → List Char → Option (List Char)
  | 0, _ => none
  | fuel + 1, s =>
    match jsonSkipWs s with
    | ',' :: cs => do
      let s1 ← parseValue fuel cs
      parseElemsRest fuel s1
    | ']' :: cs => some cs
    | _ => none

end

/-- Holds when `s` is a single valid JSON value (possibly padded with
whitespace). -/
def jsonValid (s : List Char) : Bool :=
  match parseValue (s.length + 2) s with
  | some rest => (jsonSkipWs rest).isEmpty
  | none => false

/-- Holds when `s` parses as a JSON value starting with an object brace. -/
def jsonObjectValid (s : List Char) : Bool :=
  jsonValid s && (match jsonSkipWs s with
                  | c :: _ => c = lbrace
                  | [] => false)

/-! ## main.py: the `/invoke-simple` handler -/

inductive SimpleBody where
  | response (text : String)
  | error (msg : String)
  deriving Repr, DecidableEq

structure HttpReply where
  status : Nat
  body : SimpleBody
  deriving Repr, DecidableEq

/-- Handler `invoke_agent_simple` (main.py lines 53–81): the agent run either
returns a final state (its message list) or raises, modelled as
`Except`.  FastAPI turns a returned dict into an HTTP 200 response. -/
def invoke_agent_simple (run : Except String (List Message)) : HttpReply :=
  match run with
  | .error e => ⟨200, .error e⟩
  | .ok msgs =>
    match msgs.getLast? with
    | some final_message => ⟨200, .response final_message.content⟩
    | none => ⟨200, .response "No response generated"⟩

/-! ## Helper lemmas: folded max/min over a list -/

theorem listMax_mem (x : Int) (xs : List Int) : listMax x xs ∈ x :: xs := by
  induction xs generalizing x with
  | nil => simp [listMax]
  | cons y ys ih =>
    have h := ih (max x y)
    simp only [listMax, List.foldl_cons] at h ⊢
    rcases List.mem_cons.mp h with h' | h'
    · rcases max_choice x y with hm | hm
      · exact List.mem_cons.mpr (Or.inl (h'.trans hm))
      · exact List.mem_cons.mpr (Or.inr (List.mem_cons.mpr (Or.inl (h'.trans hm))))
    · exact List.mem_cons.mpr (Or.inr (List.mem_cons.mpr (Or.inr h')))

theorem le_listMax (x : Int) (xs : List Int) : x ≤ listMax x xs := by
  induction xs generalizing x with
  | nil => simp [listMax]
  | cons y ys ih =>
    have h := ih (max x y)
    simp only [listMax, List.foldl_cons] at h ⊢
    exact le_trans (le_max_left x y) h

theorem mem_le_listMax (x : Int) (xs : List Int) : ∀ y ∈ xs, y ≤ listMax x xs := by
  induction xs generalizing x with
  | nil => simp
  | cons z zs ih =>
    intro y hy
    rcases List.mem_cons.mp hy with h | h
    · subst h
      have := le_listMax (max x y) zs
      simp only [listMax, List.foldl_cons]
      exact le_trans (le_max_right x y) this
    · simpa [listMax, List.foldl_cons] using ih (max x z) y h

theorem listMin_mem (x : Int) (xs : List Int) : listMin x xs ∈ x :: xs := by
  induction xs generalizing x with
  | nil => simp [listMin]
  | cons y ys ih =>
    have h := ih (min x y)
    simp only [listMin, List.foldl_cons] at h ⊢
    rcases List.mem_cons.mp h with h' | h'
    · rcases min_choice x y with hm | hm
      · exact List.mem_cons.mpr (Or.inl (h'.trans hm))
      · exact List.mem_cons.mpr (Or.inr (List.mem_cons.mpr (Or.inl (h'.trans hm))))
    · exact List.mem_cons.mpr (Or.inr (List.mem_cons.mpr (Or.inr h')))

theorem listMin_le (x : Int) (xs : List Int) : listMin x xs ≤ x := by
  induction xs generalizing x with
  | nil => simp [listMin]
  | cons y ys ih =>
    have h := ih (min x y)
    simp only [listMin, List.foldl_cons] at h ⊢
    exact le_trans h (min_le_left x y)

theorem listMin_le_mem (x : Int) (xs : List Int) : ∀ y ∈ xs, listMin x xs ≤ y := by
  induction xs generalizing x with
  | nil => simp
  | cons z zs ih =>
    intro y hy
    rcases List.mem_cons.mp hy with h | h
    · subst h
      have := listMin_le (min x y) zs
      simp only [listMin, List.foldl_cons]
      exact le_trans this (min_le_right x y)
    · simpa [listMin, List.foldl_cons] using ih (min x z) y h

theorem digitChar_isDigit (k : Nat) (h : k < 10) : (digitChar k).isDigit = true := by
  interval_cases k <;> decide

theorem str_data_append (a b : String) : (a ++ b).data = a.data ++ b.data := rfl

theorem twoDecimals_fmt2 (c : Int) : twoDecimals (fmt2 c) = true := by
  have h1 : (fmt2 c).data =
      ((if c < 0 then "-" else "") ++ toString (c.natAbs / 100)).data ++
        ['.', digitChar (c.natAbs % 100 / 10 % 10), digitChar (c.natAbs % 100 % 10)] := by
    simp [fmt2, fmt2N, pad2, str_data_append, String.mk]
  simp only [twoDecimals, h1, List.reverse_append]
  simp [digitChar_isDigit (c.natAbs % 100 / 10 % 10) (by omega),
        digitChar_isDigit (c.natAbs % 100 % 10) (by omega)]

theorem getLast_cons_eq_getLastD {α : Type _} (r : α) (rs : List α) :
    (r :: rs).getLast (by simp) = rs.getLastD r := by
  induction rs generalizing r with
  | nil => rfl
  | cons r' rs' ih =>
    rw [List.getLast_cons (by simp)]
    simp only [List.getLastD]

/-! ## Claim theorems: the tool functions -/

/-- C4 counterexample: the claim says the fast-path sentence is returned
whenever the provider's fast-path last price is available; but when the
available price is 0, Python's `if price:` is falsy and the code falls
through to the (here empty) history, returning the invalid-symbol
message instead of the claimed sentence. -/
theorem c4_zero_price_counterexample :
    retrieve_realtime_stock_price (.ok ⟨some 0, some "USD", []⟩) "ZERO" ≠
      "The real-time stock price for ZERO is $0.00 USD." := by decide

/-- C4 (amended): `retrieve_realtime_stock_price` returns the sentence
`The real-time stock price for \x7bsymbol\x7d is $\x7bprice:.2f\x7d \x7bcurrency\x7d.`
when the fast-path last price is available and nonzero; when the
fast-path price is missing or zero it falls back to the most recent
close of the one-day history; and when that history is also empty it
returns the invalid-symbol message. -/
theorem c4_realtime_price (t : RtData) (symbol : String) :
    (∀ p, t.last_price = some p → p ≠ 0 →
      retrieve_realtime_stock_price (.ok t) symbol =
        realtimeSentence symbol p (t.currency.getD "USD")) ∧
    ((t.last_price = none ∨ t.last_price = some 0) →
      ∀ close, t.histClose.getLast? = some close →
        retrieve_realtime_stock_price (.ok t) symbol =
          realtimeSentence symbol close (t.currency.getD "USD")) ∧
    ((t.last_price = none ∨ t.last_price = some 0) → t.histClose = [] →
      retrieve_realtime_stock_price (.ok t) symbol =
        "Could not retrieve real-time price for " ++ symbol ++ ". The symbol may be invalid.") := by
  obtain ⟨lp, cur, hist⟩ := t
  refine ⟨?_, ?_, ?_⟩
  · rintro p rfl hnz
    simp [retrieve_realtime_stock_price, hnz]
  · rintro (rfl | rfl) close hcl <;>
      simp [retrieve_realtime_stock_price, hcl]
  · rintro (rfl | rfl) rfl <;> rfl

/-- C4 witness: the claim's own mocked example — fast-path price 123.45,
currency USD — yields exactly the documented sentence. -/
theorem c4_realtime_price_witness :
    retrieve_realtime_stock_price (.ok ⟨some 12345, some "USD", []⟩) "AAPL" =
      "The real-time stock price for AAPL is $123.45 USD." := by
  have h := (c4_realtime_price ⟨some 12345, some "USD", []⟩ "AAPL").1 12345 rfl (by decide)
  rw [h]; decide

/-- C5: on a nonempty history, `retrieve_historical_stock_price` reports
the first day's open, the last day's close, the maximum of the daily
highs and the minimum of the daily lows, each rendered with exactly two
decimal places. -/
theorem c5_historical_summary (symbol start_date end_date : String) (r : Row) (rs : List Row) :
    retrieve_historical_stock_price (.ok (r :: rs)) symbol start_date end_date =
      historicalSummary symbol start_date end_date
        r.open_ ((r :: rs).getLast (by simp)).close
        (listMax r.high (rs.map Row.high)) (listMin r.low (rs.map Row.low)) ∧
    (∀ row ∈ r :: rs, row.high ≤ listMax r.high (rs.map Row.high)) ∧
    listMax r.high (rs.map Row.high) ∈ (r :: rs).map Row.high ∧
    (∀ row ∈ r :: rs, listMin r.low (rs.map Row.low) ≤ row.low) ∧
    listMin r.low (rs.map Row.low) ∈ (r :: rs).map Row.low ∧
    twoDecimals (fmt2 r.open_) = true ∧
    twoDecimals (fmt2 ((r :: rs).getLast (by simp)).close) = true ∧
    twoDecimals (fmt2 (listMax r.high (rs.map Row.high))) = true ∧
    twoDecimals (fmt2 (listMin r.low (rs.map Row.low))) = true := by
  refine ⟨?_, ?_, ?_, ?_, ?_, twoDecimals_fmt2 _, twoDecimals_fmt2 _,
    twoDecimals_fmt2 _, twoDecimals_fmt2 _⟩
  · simp [retrieve_historical_stock_price, getLast_cons_eq_getLastD]
  · intro row hrow
    rcases List.mem_cons.mp hrow with h | h
    · subst h; exact le_listMax _ _
    · exact mem_le_listMax _ _ _ (List.mem_map_of_mem Row.high h)
  · simpa using listMax_mem r.high (rs.map Row.high)
  · intro row hrow
    rcases List.mem_cons.mp hrow with h | h
    · subst h; exact listMin_le _ _
    · exact listMin_le_mem _ _ _ (List.mem_map_of_mem Row.low h)
  · simpa using listMin_mem r.low (rs.map Row.low)

set_option maxRecDepth 4000 in
/-- C5 witness: the claim's mocked example — a single day with open 100,
close 110, high 120, low 95 — yields the documented sentence with
$100.00, $110.00, $120.00, $95.00. -/
theorem c5_historical_summary_witness :
    retrieve_historical_stock_price (.ok [⟨10000, 12000, 9500, 11000⟩])
        "AAPL" "2024-01-01" "2024-01-31" =
      "For AAPL between 2024-01-01 and 2024-01-31: the opening price was $100.00, the closing price was $110.00, the highest price was $120.00, and the lowest price was $95.00." := by
  have h := (c5_historical_summary "AAPL" "2024-01-01" "2024-01-31"
    ⟨10000, 12000, 9500, 11000⟩ []).1
  rw [h]; decide

/-- C6: on an empty provider result set, `retrieve_historical_stock_price`
returns the explicit no-data sentence (the embedding is a total function,
so no exception escapes). -/
theorem c6_empty_history_no_data (symbol start_date end_date : String) :
    retrieve_historical_stock_price (.ok []) symbol start_date end_date =
      "No historical data found for " ++ symbol ++ " between " ++ start_date ++
        " and " ++ end_date ++ "." := rfl

/-- C7: any exception from the underlying data fetch (the `.error` case)
is converted by both tool operations into a textual error message; the
embeddings are total functions of the fetch outcome, so nothing
propagates past the tool boundary. -/
theorem c7_fetch_errors_become_text (e symbol start_date end_date : String) :
    retrieve_realtime_stock_price (.error e) symbol =
      "An error occurred while retrieving the price for " ++ symbol ++ ": " ++ e ∧
    retrieve_historical_stock_price (.error e) symbol start_date end_date =
      "An error occurred while retrieving historical data for " ++ symbol ++ ": " ++ e :=
  ⟨rfl, rfl⟩

/-! ## Claim theorems: the HTTP layer -/

/-- C8: `/invoke-simple` always answers HTTP 200; a successful run
yields `\x7bresponse: <final turn content>\x7d` and an internal exception
yields `\x7berror: <message>\x7d` in-band. -/
theorem c8_invoke_simple_always_200 (run : Except String (List Message)) :
    (invoke_agent_simple run).status = 200 ∧
    (∀ e, run = .error e → (invoke_agent_simple run).body = .error e) ∧
    (∀ msgs final_message, run = .ok msgs → msgs.getLast? = some final_message →
      (invoke_agent_simple run).body = .response final_message.content) := by
  refine ⟨?_, ?_, ?_⟩
  · cases run with
    | error e => rfl
    | ok msgs => cases h : msgs.getLast? <;> simp [invoke_agent_simple, h]
  · rintro e rfl; rfl
  · rintro msgs m rfl h
    simp [invoke_agent_simple, h]

/-- C8 witness: a concrete failed run and a concrete successful run. -/
theorem c8_invoke_simple_always_200_witness :
    (invoke_agent_simple (.error "boom")).body = .error "boom" ∧
    (invoke_agent_simple (.ok [Message.human "q", Message.ai "It is $123.45 USD." []])).body =
      .response "It is $123.45 USD." ∧
    (invoke_agent_simple (.error "boom")).status = 200 := by
  refine ⟨?_, ?_, ?_⟩
  · exact (c8_invoke_simple_always_200 _).2.1 "boom" rfl
  · exact (c8_invoke_simple_always_200 _).2.2 _ (Message.ai "It is $123.45 USD." []) rfl (by decide)
  · exact (c8_invoke_simple_always_200 _).1

/-- C9: streaming an assistant turn whose content is exactly the 4-word
phrase "AAPL rose sharply today" produces exactly one `content` event,
whose text is the whole phrase as a single chunk. -/
theorem c9_four_word_single_content_event :
    agentBranchEvents (.ai "AAPL rose sharply today" []) =
      [sseEvent (contentBody ("AAPL rose sharply today".toList))] ∧
    chunkContent ("AAPL rose sharply today".toList) =
      ["AAPL rose sharply today".toList] := by decide

/-- C1 (code bug evaluated): the fixed-template `connection` and
`complete` events are valid JSON objects, but the generator interpolates
raw text into its JSON templates, so a `content` chunk containing a
double quote, a `tool_result` text containing a double quote, and every
nonempty `tool_call` argument mapping (serialized via Python dict repr
with single quotes) all produce `data:` payloads that are not valid
JSON, contradicting the claim. -/
theorem c1_stream_payload_not_json :
    jsonObjectValid connectionBody = true ∧
    jsonObjectValid completeBody = true ∧
    agentBranchEvents (.ai "Analysts said \"buy\" now" []) =
      [sseEvent (contentBody ("Analysts said \"buy\" now".toList))] ∧
    jsonValid (contentBody ("Analysts said \"buy\" now".toList)) = false ∧
    jsonValid (toolCallBody ⟨"retrieve_realtime_stock_price", [("symbol", "AAPL")], "call_1"⟩)
      = false ∧
    jsonValid (toolResultBody ("fetch failed: \"rate limited\"".toList)) = false := by
  refine ⟨by decide, by decide, by decide, by decide, by decide, by decide⟩

/-! ## Claim theorems: the control loop -/

theorem should_continue_append (msgs : List Message) (m : Message)
    (h : (AgentState.mk (msgs ++ [m])).messages ≠ []) :
    should_continue ⟨msgs ++ [m]⟩ h =
      if m.tool_calls.isEmpty then "end" else "continue" := by
  simp [should_continue, List.getLast_append]

/-- C2: after a model step, `should_continue` inspects the just-appended
assistant turn; an empty tool-call list routes to `END` (and one loop
step indeed stops there), a nonempty one routes to the `action`
(tool-execution) node. -/
theorem c2_should_continue_routes (msgs : List Message) (c : String) (tcs : List ToolCall) :
    (tcs = [] →
      routeAfterAgent (should_continue ⟨msgs ++ [Message.ai c tcs]⟩ (by simp)) =
        some GraphNode.done ∧
      ∀ (env : ToolCall → String) (rest : List (String × List ToolCall)),
        runLoop env ((c, tcs) :: rest) msgs = msgs ++ [Message.ai c tcs]) ∧
    (tcs ≠ [] →
      routeAfterAgent (should_continue ⟨msgs ++ [Message.ai c tcs]⟩ (by simp)) =
        some GraphNode.action) := by
  constructor
  · rintro rfl
    constructor
    · rw [should_continue_append]
      simp only [Message.tool_calls, List.isEmpty_nil, if_true]
      decide
    · intro env rest
      rw [runLoop]
      simp [should_continue_append, Message.tool_calls]
  · intro hne
    rw [should_continue_append]
    have : (Message.ai c tcs).tool_calls.isEmpty = false := by
      simp [Message.tool_calls, List.isEmpty_iff, hne]
    rw [this]
    decide

/-- C2 witness: a turn with no tool calls routes to `END` (and ends the
loop), a turn with one tool call routes to `action`. -/
theorem c2_should_continue_routes_witness :
    routeAfterAgent (should_continue ⟨[Message.human "hi", Message.ai "done" []]⟩ (by decide)) =
      some GraphNode.done ∧
    routeAfterAgent (should_continue ⟨[Message.human "hi",
        Message.ai "" [⟨"retrieve_realtime_stock_price", [("symbol", "AAPL")], "c1"⟩]]⟩
        (by decide)) = some GraphNode.action ∧
    runLoop (fun _ => "") [("done", [])] [Message.human "hi"] =
      [Message.human "hi", Message.ai "done" []] := by
  refine ⟨?_, ?_, ?_⟩
  · exact ((c2_should_continue_routes [Message.human "hi"] "done" []).1 rfl).1
  · exact (c2_should_continue_routes [Message.human "hi"] ""
      [⟨"retrieve_realtime_stock_price", [("symbol", "AAPL")], "c1"⟩]).2 (by decide)
  · exact ((c2_should_continue_routes [Message.human "hi"] "done" []).1 rfl).2 (fun _ => "") []

theorem wfScan_append (a b : List Message) : ∀ p, wfScan p a = true →
    wfScan [] b = true → wfScan p (a ++ b) = true := by
  induction a with
  | nil =>
    intro p hp hb
    cases p with
    | nil => simpa using hb
    | cons tc p' => simp [wfScan] at hp
  | cons m a' ih =>
    intro p hp hb
    cases p with
    | nil =>
      cases m with
      | human c => simpa [wfScan] using ih [] (by simpa [wfScan] using hp) hb
      | ai c tcs => simpa [wfScan] using ih tcs (by simpa [wfScan] using hp) hb
      | tool c id => simp [wfScan] at hp
    | cons tc p' =>
      cases m with
      | human c => simp [wfScan] at hp
      | ai c tcs => simp [wfScan] at hp
      | tool c id =>
        simp only [wfScan, List.cons_append] at hp ⊢
        simp only [Bool.and_eq_true] at hp ⊢
        exact ⟨hp.1, ih p' hp.2 hb⟩

theorem wfScan_exec (env : ToolCall → String) (tcs : List ToolCall) (b : List Message)
    (hb : wfScan [] b = true) :
    wfScan tcs (tcs.map (execToolCall env) ++ b) = true := by
  induction tcs with
  | nil => simpa
  | cons tc tcs ih => simp [wfScan, execToolCall, ih]

theorem runLoop_wf (env : ToolCall → String) :
    ∀ (oracle : List (String × List ToolCall)) (msgs : List Message),
      wfMessages msgs = true → wfMessages (runLoop env oracle msgs) = true := by
  intro oracle
  induction oracle with
  | nil => intro msgs h; simpa [runLoop]
  | cons p rest ih =>
    obtain ⟨c, tcs⟩ := p
    intro msgs h
    cases tcs with
    | nil =>
      have hstep : runLoop env ((c, []) :: rest) msgs = msgs ++ [Message.ai c []] := by
        rw [runLoop]
        simp [should_continue_append, Message.tool_calls]
      rw [hstep]
      exact wfScan_append msgs [Message.ai c []] [] h (by simp [wfScan])
    | cons tc tcs' =>
      have hstep : runLoop env ((c, tc :: tcs') :: rest) msgs =
          runLoop env rest
            (msgs ++ (Message.ai c (tc :: tcs') :: (tc :: tcs').map (execToolCall env))) := by
        rw [runLoop]
        simp [should_continue_append, Message.tool_calls]
      rw [hstep]
      apply ih
      apply wfScan_append msgs _ [] h
      show wfScan [] (Message.ai c (tc :: tcs') :: (tc :: tcs').map (execToolCall env)) = true
      simp only [wfScan]
      have := wfScan_exec env (tc :: tcs') [] (by decide)
      simpa using this

/-- C3: in every conversation state the control loop produces — for any
model-reply oracle and any tool environment, starting from the seeded
user turn — each assistant turn carrying N tool-call requests is
immediately followed by exactly N tool-result turns, one per requested
call, carrying the requests' ids in request order (`wfMessages`). -/
theorem c3_tool_results_follow_calls (env : ToolCall → String) (query : String)
    (oracle : List (String × List ToolCall)) :
    wfMessages (runLoop env oracle [Message.human query]) = true :=
  runLoop_wf env oracle [Message.human query] rfl

/-! ## The chunker's algebra: words, joins, splits -/

/-- A word as produced by `str.split()`: nonempty and free of whitespace. -/
def goodWord (w : List Char) : Bool := !w.isEmpty && w.all (fun c => !isSpace c)

def goodWords (ws : List (List Char)) : Bool := ws.all goodWord

/-- The accumulator built by `current_chunk += word + " "`. -/
def wordsAcc : List (List Char) → List Char
  | [] => []
  | w :: ws => w ++ ' ' :: wordsAcc ws

/-- Words joined by single spaces (no trailing separator). -/
def joinSpace : List (List Char) → List Char
  | [] => []
  | [w] => w
  | w :: ws => w ++ ' ' :: joinSpace ws

theorem goodWord_iff (w : List Char) :
    goodWord w = true ↔ w ≠ [] ∧ ∀ c ∈ w, isSpace c = false := by
  simp [goodWord, List.isEmpty_iff, List.all_eq_true]

theorem goodWords_cons (w : List Char) (ws : List (List Char)) :
    goodWords (w :: ws) = true ↔ goodWord w = true ∧ goodWords ws = true := by
  simp [goodWords]

theorem joinSpace_cons (w : List Char) (ps : List (List Char)) :
    joinSpace (w :: ps) = w ++ (if ps.isEmpty then [] else ' ' :: joinSpace ps) := by
  cases ps <;> simp [joinSpace]

theorem pySplitGo_word (w : List Char) (rest acc : List Char)
    (hw : ∀ c ∈ w, isSpace c = false) :
    pySplitGo (w ++ rest) acc = pySplitGo rest (w.reverse ++ acc) := by
  induction w generalizing acc with
  | nil => simp
  | cons c w' ih =>
    have hc : isSpace c = false := hw c (by simp)
    simp only [List.cons_append, pySplitGo, hc, Bool.false_eq_true, if_false, List.append_eq]
    rw [ih _ (fun d hd => hw d (by simp [hd]))]
    simp

theorem pySplit_wordsAcc (ps : List (List Char)) (hps : goodWords ps = true) :
    pySplitGo (wordsAcc ps) [] = ps := by
  induction ps with
  | nil => rfl
  | cons w ps' ih =>
    obtain ⟨hw, hps'⟩ := (goodWords_cons w ps').mp hps
    obtain ⟨hwne, hwns⟩ := (goodWord_iff w).mp hw
    simp only [wordsAcc]
    rw [pySplitGo_word w (' ' :: wordsAcc ps') [] hwns]
    have hsp : isSpace ' ' = true := rfl
    have hacc : (w.reverse ++ ([] : List Char)).isEmpty = false := by
      simp [List.isEmpty_iff, hwne]
    simp only [pySplitGo, hsp, if_true, hacc, Bool.false_eq_true, if_false]
    simp [ih hps']

theorem pySplit_joinSpace (ps : List (List Char)) (hps : goodWords ps = true) :
    pySplit (joinSpace ps) = ps := by
  induction ps with
  | nil => rfl
  | cons w ps' ih =>
    obtain ⟨hw, hps'⟩ := (goodWords_cons w ps').mp hps
    obtain ⟨hwne, hwns⟩ := (goodWord_iff w).mp hw
    cases ps' with
    | nil =>
      show pySplitGo (joinSpace [w]) [] = [w]
      have : joinSpace [w] = w ++ [] := by simp [joinSpace]
      rw [this, pySplitGo_word w [] [] hwns]
      have hacc : (w.reverse ++ ([] : List Char)).isEmpty = false := by
        simp [List.isEmpty_iff, hwne]
      simp only [pySplitGo, hacc, Bool.false_eq_true, if_false]
      simp
    | cons w2 ps'' =>
      show pySplitGo (joinSpace (w :: w2 :: ps'')) [] = w :: w2 :: ps''
      simp only [joinSpace]
      rw [pySplitGo_word w (' ' :: joinSpace (w2 :: ps'')) [] hwns]
      have hsp : isSpace ' ' = true := rfl
      have hacc : (w.reverse ++ ([] : List Char)).isEmpty = false := by
        simp [List.isEmpty_iff, hwne]
      simp only [pySplitGo, hsp, if_true, hacc, Bool.false_eq_true, if_false]
      have hrec := ih hps'
      simp only [pySplit] at hrec
      simp [hrec]

theorem goodWords_pySplitGo (s : List Char) :
    ∀ acc, (∀ c ∈ acc, isSpace c = false) → goodWords (pySplitGo s acc) = true := by
  induction s with
  | nil =>
    intro acc hacc
    cases ha : acc.isEmpty
    · have hne : acc ≠ [] := by simpa [List.isEmpty_iff] using ha
      simp only [pySplitGo, ha, Bool.false_eq_true, if_false]
      rw [goodWords_cons]
      refine ⟨(goodWord_iff _).mpr ⟨by simpa using hne, ?_⟩, rfl⟩
      intro c hc
      exact hacc c (List.mem_reverse.mp hc)
    · simp [pySplitGo, ha, goodWords]
  | cons c cs ih =>
    intro acc hacc
    cases hc : isSpace c
    · simp only [pySplitGo, hc, Bool.false_eq_true, if_false]
      refine ih (c :: acc) ?_
      intro d hd
      rcases List.mem_cons.mp hd with rfl | hd'
      · exact hc
      · exact hacc d hd'
    · cases ha : acc.isEmpty
      · have hne : acc ≠ [] := by simpa [List.isEmpty_iff] using ha
        simp only [pySplitGo, hc, if_true, ha, Bool.false_eq_true, if_false]
        rw [goodWords_cons]
        refine ⟨(goodWord_iff _).mpr ⟨by simpa using hne, ?_⟩, ih [] (by simp)⟩
        intro d hd
        exact hacc d (List.mem_reverse.mp hd)
      · simp only [pySplitGo, hc, if_true, ha]
        exact ih [] (by simp)

theorem goodWords_pySplit (s : List Char) : goodWords (pySplit s) = true :=
  goodWords_pySplitGo s [] (by simp)

theorem wordsAcc_append (ps : List (List Char)) (w : List Char) :
    wordsAcc (ps ++ [w]) = wordsAcc ps ++ w ++ [' '] := by
  induction ps with
  | nil => simp [wordsAcc]
  | cons v ps' ih => simp [wordsAcc, ih]

theorem wordsAcc_eq_joinSpace (w : List Char) (ps : List (List Char)) :
    wordsAcc (w :: ps) = joinSpace (w :: ps) ++ [' '] := by
  induction ps generalizing w with
  | nil => simp [wordsAcc, joinSpace]
  | cons v ps' ih =>
    calc wordsAcc (w :: v :: ps') = w ++ ' ' :: wordsAcc (v :: ps') := rfl
      _ = w ++ ' ' :: (joinSpace (v :: ps') ++ [' ']) := by rw [ih v]
      _ = joinSpace (w :: v :: ps') ++ [' '] := by
          rw [show joinSpace (w :: v :: ps') = w ++ ' ' :: joinSpace (v :: ps') from rfl]
          simp

theorem joinSpace_ends_good (ps : List (List Char)) :
    ∀ w, goodWords (w :: ps) = true →
      ∃ s last_, joinSpace (w :: ps) = s ++ last_ ∧ goodWord last_ = true := by
  induction ps with
  | nil =>
    intro w hw
    exact ⟨[], w, by simp [joinSpace], ((goodWords_cons w []).mp hw).1⟩
  | cons v ps' ih =>
    intro w hw
    obtain ⟨hw1, hw2⟩ := (goodWords_cons w (v :: ps')).mp hw
    obtain ⟨s, last_, hs, hlast⟩ := ih v hw2
    refine ⟨w ++ ' ' :: s, last_, ?_, hlast⟩
    simp only [joinSpace, hs]
    simp

theorem joinSpace_cons_ne_nil (w : List Char) (ps : List (List Char))
    (hw : w ≠ []) : joinSpace (w :: ps) ≠ [] := by
  rw [joinSpace_cons]
  simp [hw]

theorem dropWhile_cons_of_false {c : Char} (t : List Char) (h : isSpace c = false) :
    List.dropWhile isSpace (c :: t) = c :: t := by
  simp [List.dropWhile, h]

theorem dropWhile_reverse_good (s last_ : List Char) (hlast : goodWord last_ = true) :
    List.dropWhile isSpace ((s ++ last_).reverse) = (s ++ last_).reverse := by
  obtain ⟨hne, hns⟩ := (goodWord_iff last_).mp hlast
  rw [List.reverse_append]
  cases hr : last_.reverse with
  | nil => exact absurd (by simpa using hr) hne
  | cons d t =>
    have hd : d ∈ last_ := by
      have : d ∈ last_.reverse := by simp [hr]
      exact List.mem_reverse.mp this
    rw [List.cons_append]
    exact dropWhile_cons_of_false _ (hns d hd)

theorem pyStrip_wordsAcc (ps : List (List Char)) (hps : goodWords ps = true) :
    pyStrip (wordsAcc ps) = joinSpace ps := by
  cases ps with
  | nil => rfl
  | cons w ps' =>
    obtain ⟨hw, hps'⟩ := (goodWords_cons w ps').mp hps
    obtain ⟨hwne, hwns⟩ := (goodWord_iff w).mp hw
    obtain ⟨s, last_, hdecomp, hlast⟩ := joinSpace_ends_good ps' w hps
    rw [wordsAcc_eq_joinSpace]
    -- leading side: the first character is the head of `w`, not a space
    have hj : joinSpace (w :: ps') ++ [' '] =
        w ++ ((if ps'.isEmpty then [] else ' ' :: joinSpace ps') ++ [' ']) := by
      rw [joinSpace_cons]; simp
    have hdw : List.dropWhile isSpace (joinSpace (w :: ps') ++ [' ']) =
        joinSpace (w :: ps') ++ [' '] := by
      cases w with
      | nil => exact absurd rfl hwne
      | cons c w' =>
        rw [hj, List.cons_append]
        rw [dropWhile_cons_of_false _ (hwns c (by simp))]
    -- trailing side: reverse starts with the single space, then the last word
    have hrev : (joinSpace (w :: ps') ++ [' ']).reverse =
        ' ' :: (joinSpace (w :: ps')).reverse := by simp
    unfold pyStrip
    rw [hdw, hrev]
    have hsp : isSpace ' ' = true := rfl
    rw [List.dropWhile_cons_of_pos (by simp [hsp])]
    rw [hdecomp, dropWhile_reverse_good s last_ hlast]
    simp

theorem joinSpace_append (xs ys : List (List Char)) (hx : xs ≠ []) (hy : ys ≠ []) :
    joinSpace (xs ++ ys) = joinSpace xs ++ ' ' :: joinSpace ys := by
  induction xs with
  | nil => exact absurd rfl hx
  | cons w xs' ih =>
    cases xs' with
    | nil =>
      cases ys with
      | nil => exact absurd rfl hy
      | cons y ys' => simp [joinSpace]
    | cons v xs'' =>
      have h1 : (w :: v :: xs'') ++ ys = w :: ((v :: xs'') ++ ys) := by simp
      rw [h1]
      have h2 : joinSpace (w :: (v :: xs'' ++ ys)) = w ++ ' ' :: joinSpace (v :: xs'' ++ ys) := by
        rw [joinSpace_cons]; simp
      rw [h2, ih (by simp)]
      rw [show joinSpace (w :: v :: xs'') = w ++ ' ' :: joinSpace (v :: xs'') from by
        rw [joinSpace_cons]; simp]
      simp

theorem chunkLoop_nil_eq (current_chunk : List Char) :
    chunkLoop [] current_chunk =
      if (pyStrip current_chunk).isEmpty then [] else [pyStrip current_chunk] := rfl

theorem chunkLoop_cons_eq (word : List Char) (words : List (List Char))
    (current_chunk : List Char) :
    chunkLoop (word :: words) current_chunk =
      if 4 ≤ (pySplit (current_chunk ++ word ++ [' '])).length then
        pyStrip (current_chunk ++ word ++ [' ']) :: chunkLoop words []
      else chunkLoop words (current_chunk ++ word ++ [' ']) := rfl

theorem goodWords_append_one (ps : List (List Char)) (w : List Char)
    (hps : goodWords ps = true) (hw : goodWord w = true) :
    goodWords (ps ++ [w]) = true := by
  simp only [goodWords, List.all_append, List.all_cons, List.all_nil, Bool.and_true] at *
  simp [hps, hw]

theorem chunkLoop_spec (ws : List (List Char)) :
    ∀ ps : List (List Char), goodWords ws = true → goodWords ps = true → ps.length ≤ 3 →
      (∀ ch ∈ (chunkLoop ws (wordsAcc ps)).dropLast, (pySplit ch).length = 4) ∧
      joinSpace (chunkLoop ws (wordsAcc ps)) = joinSpace (ps ++ ws) ∧
      (ps ++ ws = [] ∨ chunkLoop ws (wordsAcc ps) ≠ []) := by
  induction ws with
  | nil =>
    intro ps hws hps hlen
    cases ps with
    | nil =>
      refine ⟨?_, ?_, Or.inl rfl⟩ <;> simp [chunkLoop, wordsAcc, pyStrip]
    | cons w ps' =>
      have hstrip := pyStrip_wordsAcc (w :: ps') hps
      have hwne : w ≠ [] := ((goodWord_iff w).mp ((goodWords_cons w ps').mp hps).1).1
      have hne : (joinSpace (w :: ps')).isEmpty = false := by
        simp [List.isEmpty_iff, joinSpace_cons_ne_nil w ps' hwne]
      have hout : chunkLoop [] (wordsAcc (w :: ps')) = [joinSpace (w :: ps')] := by
        rw [chunkLoop_nil_eq, hstrip, hne]
        simp
      refine ⟨?_, ?_, Or.inr ?_⟩
      · rw [hout]; simp
      · rw [hout]; simp [joinSpace]
      · rw [hout]; simp
  | cons w ws' ih =>
    intro ps hws hps hlen
    obtain ⟨hw, hws'⟩ := (goodWords_cons w ws').mp hws
    have hgood1 : goodWords (ps ++ [w]) = true := goodWords_append_one ps w hps hw
    have hacc : wordsAcc ps ++ w ++ [' '] = wordsAcc (ps ++ [w]) := (wordsAcc_append ps w).symm
    have hsplit : pySplit (wordsAcc (ps ++ [w])) = ps ++ [w] := pySplit_wordsAcc _ hgood1
    rw [chunkLoop_cons_eq, hacc, hsplit]
    by_cases hfour : ps.length = 3
    · have hcond : 4 ≤ (ps ++ [w]).length := by simp [hfour]
      rw [if_pos hcond]
      have hstrip : pyStrip (wordsAcc (ps ++ [w])) = joinSpace (ps ++ [w]) :=
        pyStrip_wordsAcc _ hgood1
      rw [hstrip]
      obtain ⟨ihA, ihB, ihC⟩ := ih [] hws' rfl (by simp)
      simp only [wordsAcc, List.nil_append] at ihA ihB ihC
      refine ⟨?_, ?_, Or.inr (by simp)⟩
      · intro ch hch
        cases hout : chunkLoop ws' [] with
        | nil => rw [hout] at hch; simp at hch
        | cons o os =>
          rw [hout] at hch
          rw [List.dropLast_cons₂] at hch
          rcases List.mem_cons.mp hch with rfl | hch'
          · rw [pySplit_joinSpace _ hgood1]
            simp [hfour]
          · have := ihA ch (by rw [hout]; exact hch')
            exact this
      · cases hout : chunkLoop ws' [] with
        | nil =>
          have hws'nil : ws' = [] := by
            rcases ihC with h | h
            · exact h
            · exact absurd hout h
          subst hws'nil
          simp [joinSpace]
        | cons o os =>
          have hws'ne : ws' ≠ [] := by
            rintro rfl
            rw [show chunkLoop [] ([] : List Char) = [] from rfl] at hout
            exact List.noConfusion hout
          have hjoin : joinSpace (joinSpace (ps ++ [w]) :: o :: os) =
              joinSpace (ps ++ [w]) ++ ' ' :: joinSpace (o :: os) := rfl
          rw [hjoin]
          rw [hout] at ihB
          rw [ihB]
          have hps1 : ps ++ w :: ws' = (ps ++ [w]) ++ ws' := by simp
          rw [hps1, joinSpace_append (ps ++ [w]) ws' (by simp) hws'ne]
    · have hcond : ¬ 4 ≤ (ps ++ [w]).length := by
        simp only [List.length_append, List.length_cons, List.length_nil]
        omega
      rw [if_neg hcond]
      obtain ⟨ihA, ihB, ihC⟩ := ih (ps ++ [w]) hws' hgood1 (by simp; omega)
      refine ⟨ihA, ?_, Or.inr ?_⟩
      · rw [ihB]
        have : (ps ++ [w]) ++ ws' = ps ++ w :: ws' := by simp
        rw [this]
      · rcases ihC with h | h
        · exact absurd h (by simp)
        · exact h

/-- C10: for every content string, the chunker of `stream_generator`
partitions its whitespace-separated words without loss, duplication or
reordering: every emitted chunk except possibly the last carries exactly
4 words, and joining the emitted chunks with single spaces equals the
content with its whitespace normalized to single spaces (`joinSpace` of
its `split()`). -/
theorem c10_chunker_partition (content : List Char) (_hne : content ≠ []) :
    (∀ ch ∈ (chunkContent content).dropLast, (pySplit ch).length = 4) ∧
    joinSpace (chunkContent content) = joinSpace (pySplit content) := by
  obtain ⟨hA, hB, _⟩ := chunkLoop_spec (pySplit content) [] (goodWords_pySplit content) rfl
    (by simp)
  constructor
  · intro ch hch
    exact hA ch (by simpa [chunkContent, wordsAcc] using hch)
  · simpa [chunkContent, wordsAcc] using hB

/-- C10 witness: a 9-word content splits into chunks of 4, 4 and 1
words whose space-join restores the normalized content. -/
theorem c10_chunker_partition_witness :
    (∀ ch ∈ (chunkContent ("one two three four five six seven eight nine".toList)).dropLast,
        (pySplit ch).length = 4) ∧
    joinSpace (chunkContent ("one two three four five six seven eight nine".toList)) =
      joinSpace (pySplit ("one two three four five six seven eight nine".toList)) :=
  c10_chunker_partition ("one two three four five six seven eight nine".toList) (by decide)

end AgentLambda
